import Mathlib

/-!
Verification of the trading-account ledger in `output/accounts.py`.

Python floats (cash amounts, prices) are modelled as rationals `ℚ`;
Python `int` quantities are modelled as `Int`.  A Python `dict` of
holdings is modelled as an association list (`List (String × Int)`)
whose operations mirror the dict semantics used by the code: in-place
update preserves entry position, a fresh key is appended at the end,
and `del` removes the entry.  A raised `ValueError` is modelled as
`Except.error msg` carrying the exact message string of the source.
-/

namespace TradingSpec

/-- Message of `raise ValueError` in `Account.deposit`. -/
def msgDepositPositive : String := "Deposit amount must be greater than zero."

/-- First message of `raise ValueError` in `Account.withdraw`. -/
def msgWithdrawPositive : String := "Withdrawal amount must be greater than zero."

/-- Second message of `raise ValueError` in `Account.withdraw`. -/
def msgWithdrawInsufficient : String := "Insufficient funds to withdraw the specified amount."

/-- Quantity message of `raise ValueError` in `Account.buy_shares` and `Account.sell_shares`. -/
def msgQuantityPositive : String := "Quantity must be greater than zero."

/-- Funds message of `raise ValueError` in `Account.buy_shares`. -/
def msgBuyInsufficient : String := "Insufficient funds to buy shares."

/-- Shares message of `raise ValueError` in `Account.sell_shares`. -/
def msgSellNotEnough : String := "Not enough shares to sell."

/-- One entry of `self.transactions`: the Python code appends dicts with a
`type` key of `Deposit`, `Withdrawal`, `Buy` or `Sell` and the corresponding
payload fields. -/
inductive Txn where
  | deposit (amount : ℚ)
  | withdrawal (amount : ℚ)
  | buy (symbol : String) (quantity : Int)
  | sell (symbol : String) (quantity : Int)
  deriving DecidableEq, Repr

/-- The `Account` object of `output/accounts.py`. -/
structure Account where
  username : String
  balance : ℚ
  holdings : List (String × Int)
  transactions : List Txn
  deriving DecidableEq, Repr

/-- Function `get_share_price` of `output/accounts.py`: a fixed price dict
`{AAPL: 150.0, TSLA: 700.0, GOOGL: 2800.0}` with `.get(symbol, 0.0)`. -/
def get_share_price (symbol : String) : ℚ :=
  if symbol = "AAPL" then 150
  else if symbol = "TSLA" then 700
  else if symbol = "GOOGL" then 2800
  else 0

/-- Dict access `symbol in holdings` / `holdings[symbol]`. -/
def lookupH : List (String × Int) → String → Option Int
  | [], _ => none
  | (s, n) :: rest, sym => if s = sym then some n else lookupH rest sym

/-- Dict update `holdings[symbol] += quantity` when present, else `holdings[symbol] = quantity`
(a fresh dict key is appended at the end, an updated key keeps its place). -/
def addShares : List (String × Int) → String → Int → List (String × Int)
  | [], sym, q => [(sym, q)]
  | (s, n) :: rest, sym, q =>
      if s = sym then (s, n + q) :: rest else (s, n) :: addShares rest sym q

/-- Dict update `holdings[symbol] -= quantity` followed by `del holdings[symbol]` when
the count reaches zero, as in `Account.sell_shares`. -/
def subShares : List (String × Int) → String → Int → List (String × Int)
  | [], _, _ => []
  | (s, n) :: rest, sym, q =>
      if s = sym then (if n - q = 0 then rest else (s, n - q) :: rest)
      else (s, n) :: subShares rest sym q

/-- Constructor `Account.__init__` (also the body of `Account.create_account`). -/
def initAccount (username : String) : Account :=
  { username := username, balance := 0, holdings := [], transactions := [] }

/-- Method `Account.deposit`. -/
def deposit (a : Account) (amount : ℚ) : Except String Account :=
  if amount ≤ 0 then Except.error msgDepositPositive
  else Except.ok { a with
    balance := a.balance + amount,
    transactions := a.transactions ++ [Txn.deposit amount] }

/-- Method `Account.withdraw`. -/
def withdraw (a : Account) (amount : ℚ) : Except String Account :=
  if amount ≤ 0 then Except.error msgWithdrawPositive
  else if a.balance - amount < 0 then Except.error msgWithdrawInsufficient
  else Except.ok { a with
    balance := a.balance - amount,
    transactions := a.transactions ++ [Txn.withdrawal amount] }

/-- Method `Account.buy_shares`; `cost = get_share_price(symbol) * quantity`. -/
def buy_shares (a : Account) (symbol : String) (quantity : Int) : Except String Account :=
  if quantity ≤ 0 then Except.error msgQuantityPositive
  else if get_share_price symbol * (quantity : ℚ) > a.balance then
    Except.error msgBuyInsufficient
  else Except.ok { a with
    balance := a.balance - get_share_price symbol * (quantity : ℚ),
    holdings := addShares a.holdings symbol quantity,
    transactions := a.transactions ++ [Txn.buy symbol quantity] }

/-- Method `Account.sell_shares`; the guard `symbol not in self.holdings or
self.holdings[symbol] < quantity` raises one message for both cases. -/
def sell_shares (a : Account) (symbol : String) (quantity : Int) : Except String Account :=
  if quantity ≤ 0 then Except.error msgQuantityPositive
  else match lookupH a.holdings symbol with
    | none => Except.error msgSellNotEnough
    | some n =>
      if n < quantity then Except.error msgSellNotEnough
      else Except.ok { a with
        balance := a.balance + get_share_price symbol * (quantity : ℚ),
        holdings := subShares a.holdings symbol quantity,
        transactions := a.transactions ++ [Txn.sell symbol quantity] }

/-- Method `Account.get_portfolio_value`: starts from `self.balance` and adds
`price * quantity` over the holdings dict. -/
def get_portfolio_value (a : Account) : ℚ :=
  a.holdings.foldl (fun acc p => acc + get_share_price p.1 * (p.2 : ℚ)) a.balance

/-- Sum `sum(t.amount for t in transactions if t.type == Deposit)` in
`Account.get_profit_loss`. -/
def depositFilterSum (ts : List Txn) : ℚ :=
  (ts.filterMap (fun t => match t with | Txn.deposit amt => some amt | _ => none)).sum

/-- Method `Account.get_profit_loss`. -/
def get_profit_loss (a : Account) : ℚ :=
  get_portfolio_value a - depositFilterSum a.transactions

/-- One call made by a caller of the mutating `Account` methods. -/
inductive Op where
  | deposit (amount : ℚ)
  | withdraw (amount : ℚ)
  | buy (symbol : String) (quantity : Int)
  | sell (symbol : String) (quantity : Int)
  deriving DecidableEq, Repr

/-- Dispatch one call to the corresponding method. -/
def applyOp (a : Account) : Op → Except String Account
  | Op.deposit amt => deposit a amt
  | Op.withdraw amt => withdraw a amt
  | Op.buy sym q => buy_shares a sym q
  | Op.sell sym q => sell_shares a sym q

/-- One call with the caller catching the `ValueError` (as `app.py` does):
on failure the account object is untouched. -/
def step (a : Account) (op : Op) : Account :=
  match applyOp a op with
  | Except.ok a2 => a2
  | Except.error _ => a

/-- A whole session: calls performed in order, failures reported and ignored. -/
def runOps (a : Account) (ops : List Op) : Account :=
  ops.foldl step a

/-- States an account object can actually be in: reachable from a fresh
`Account(username)` by any sequence of calls, successful or failing. -/
def Reachable (a : Account) : Prop :=
  ∃ u ops, runOps (initAccount u) ops = a

/-- Number of calls of a session that do not raise. -/
def succCount : Account → List Op → Nat
  | _, [] => 0
  | a, op :: rest =>
    match applyOp a op with
    | Except.ok a2 => 1 + succCount a2 rest
    | Except.error _ => succCount a rest

/-- The state invariant maintained by the methods: non-negative cash,
strictly positive share counts, and distinct dict keys. -/
def AccInv (a : Account) : Prop :=
  0 ≤ a.balance ∧ (∀ p ∈ a.holdings, 0 < p.2) ∧ (a.holdings.map Prod.fst).Nodup

theorem get_share_price_nonneg (s : String) : 0 ≤ get_share_price s := by
  unfold get_share_price
  repeat' split
  all_goals norm_num

theorem lookupH_addShares_self (h : List (String × Int)) (s : String) (q : Int) :
    lookupH (addShares h s q) s = some ((lookupH h s).getD 0 + q) := by
  induction h with
  | nil => simp [addShares, lookupH]
  | cons p t ih =>
    obtain ⟨s1, n⟩ := p
    by_cases hs : s1 = s
    · simp [addShares, lookupH, hs]
    · simp [addShares, lookupH, hs, ih]

theorem mem_keys_addShares {h : List (String × Int)} {s x : String} {q : Int}
    (hx : x ∈ (addShares h s q).map Prod.fst) : x ∈ h.map Prod.fst ∨ x = s := by
  induction h with
  | nil =>
    simp only [addShares, List.map_cons, List.map_nil, List.mem_singleton] at hx
    exact Or.inr hx
  | cons p t ih =>
    obtain ⟨s1, n⟩ := p
    simp only [List.map_cons, List.mem_cons]
    by_cases hs : s1 = s
    · simp only [addShares, if_pos hs, List.map_cons, List.mem_cons] at hx
      exact Or.inl hx
    · simp only [addShares, if_neg hs, List.map_cons, List.mem_cons] at hx
      rcases hx with hx | hx
      · exact Or.inl (Or.inl hx)
      · rcases ih hx with h1 | h1
        · exact Or.inl (Or.inr h1)
        · exact Or.inr h1

theorem nodup_addShares {h : List (String × Int)} (s : String) (q : Int)
    (hn : (h.map Prod.fst).Nodup) : ((addShares h s q).map Prod.fst).Nodup := by
  induction h with
  | nil => simp [addShares]
  | cons p t ih =>
    obtain ⟨s1, n⟩ := p
    simp only [List.map_cons, List.nodup_cons] at hn
    by_cases hs : s1 = s
    · simp only [addShares, if_pos hs, List.map_cons, List.nodup_cons]
      exact hn
    · have ht := ih hn.2
      simp only [addShares, if_neg hs, List.map_cons, List.nodup_cons]
      refine ⟨?_, ht⟩
      intro hmem
      rcases mem_keys_addShares hmem with h1 | h1
      · exact hn.1 h1
      · exact hs h1

theorem pos_addShares {h : List (String × Int)} {s : String} {q : Int}
    (hp : ∀ p ∈ h, 0 < p.2) (hq : 0 < q) : ∀ p ∈ addShares h s q, 0 < p.2 := by
  induction h with
  | nil => simpa [addShares] using hq
  | cons p t ih =>
    obtain ⟨s1, n⟩ := p
    by_cases hs : s1 = s
    · intro x hx
      simp [addShares, hs] at hx
      rcases hx with hx | hx
      · have hn : 0 < n := hp (s1, n) (by simp)
        simp [hx]; omega
      · exact hp x (by simp [hx])
    · intro x hx
      simp only [addShares, if_neg hs, List.mem_cons] at hx
      rcases hx with hx | hx
      · exact hp x (by simp [hx])
      · exact ih (fun p hpm => hp p (by simp [hpm])) x hx

theorem keys_subShares_sublist (h : List (String × Int)) (s : String) (q : Int) :
    ((subShares h s q).map Prod.fst).Sublist (h.map Prod.fst) := by
  induction h with
  | nil => simp [subShares]
  | cons p t ih =>
    obtain ⟨s1, n⟩ := p
    by_cases hs : s1 = s
    · by_cases hz : n - q = 0
      · simp only [subShares, if_pos hs, if_pos hz, List.map_cons]
        exact List.sublist_cons_self _ _
      · simp only [subShares, if_pos hs, if_neg hz, List.map_cons]
        exact List.Sublist.cons₂ _ (List.Sublist.refl _)
    · simp only [subShares, if_neg hs, List.map_cons]
      exact List.Sublist.cons₂ _ ih

theorem pos_subShares {h : List (String × Int)} {s : String} {q n : Int}
    (hp : ∀ p ∈ h, 0 < p.2) (hl : lookupH h s = some n) (hn : q ≤ n) :
    ∀ p ∈ subShares h s q, 0 < p.2 := by
  induction h with
  | nil => simp [subShares]
  | cons p t ih =>
    obtain ⟨s1, m⟩ := p
    by_cases hs : s1 = s
    · have hm : m = n := by simpa [lookupH, hs] using hl
      subst hm
      by_cases hz : m - q = 0
      · intro x hx
        simp only [subShares, if_pos hs, if_pos hz] at hx
        exact hp x (by simp [hx])
      · intro x hx
        simp only [subShares, if_pos hs, if_neg hz, List.mem_cons] at hx
        rcases hx with hx | hx
        · simp [hx]; omega
        · exact hp x (by simp [hx])
    · have hl2 : lookupH t s = some n := by simpa [lookupH, hs] using hl
      intro x hx
      simp only [subShares, if_neg hs, List.mem_cons] at hx
      rcases hx with hx | hx
      · exact hp x (by simp [hx])
      · exact ih (fun p hpm => hp p (by simp [hpm])) hl2 x hx

theorem lookupH_eq_none_iff {h : List (String × Int)} {s : String} :
    lookupH h s = none ↔ s ∉ h.map Prod.fst := by
  induction h with
  | nil => simp [lookupH]
  | cons p t ih =>
    obtain ⟨s1, n⟩ := p
    by_cases hs : s1 = s
    · simp [lookupH, hs]
    · simp [lookupH, hs, ih, Ne.symm hs]

theorem lookupH_subShares_full {h : List (String × Int)} {s : String} {q : Int}
    (hn : (h.map Prod.fst).Nodup) (hl : lookupH h s = some q) :
    lookupH (subShares h s q) s = none := by
  induction h with
  | nil => simp [lookupH] at hl
  | cons p t ih =>
    obtain ⟨s1, n⟩ := p
    simp only [List.map_cons, List.nodup_cons] at hn
    by_cases hs : s1 = s
    · have hm : n = q := by simpa [lookupH, hs] using hl
      subst hm
      have hrw : subShares ((s1, n) :: t) s n = t := by simp [subShares, hs]
      rw [hrw]
      refine lookupH_eq_none_iff.mpr ?_
      intro hmem
      exact hn.1 (by rw [hs]; exact hmem)
    · have hl2 : lookupH t s = some q := by simpa [lookupH, hs] using hl
      simpa [subShares, hs, lookupH] using ih hn.2 hl2

theorem foldl_add_eq {α : Type} (l : List α) (f : α → ℚ) (init : ℚ) :
    l.foldl (fun acc x => acc + f x) init = init + (l.map f).sum := by
  induction l generalizing init with
  | nil => simp
  | cons x t ih => simp [ih]; ring

theorem deposit_ok_elim {a a2 : Account} {amt : ℚ} (h : deposit a amt = Except.ok a2) :
    ¬ amt ≤ 0 ∧ a2 = { a with
      balance := a.balance + amt,
      transactions := a.transactions ++ [Txn.deposit amt] } := by
  by_cases hq : amt ≤ 0
  · simp [deposit, hq] at h
  · refine ⟨hq, ?_⟩
    simp only [deposit, if_neg hq, Except.ok.injEq] at h
    exact h.symm

theorem withdraw_ok_elim {a a2 : Account} {amt : ℚ} (h : withdraw a amt = Except.ok a2) :
    ¬ amt ≤ 0 ∧ ¬ a.balance - amt < 0 ∧ a2 = { a with
      balance := a.balance - amt,
      transactions := a.transactions ++ [Txn.withdrawal amt] } := by
  by_cases hq : amt ≤ 0
  · simp [withdraw, hq] at h
  · by_cases hf : a.balance - amt < 0
    · simp [withdraw, hq, hf] at h
    · refine ⟨hq, hf, ?_⟩
      simp only [withdraw, if_neg hq, if_neg hf, Except.ok.injEq] at h
      exact h.symm

theorem buy_shares_ok_elim {a a2 : Account} {sym : String} {q : Int}
    (h : buy_shares a sym q = Except.ok a2) :
    ¬ q ≤ 0 ∧ ¬ get_share_price sym * (q : ℚ) > a.balance ∧
      a2 = { a with
        balance := a.balance - get_share_price sym * (q : ℚ),
        holdings := addShares a.holdings sym q,
        transactions := a.transactions ++ [Txn.buy sym q] } := by
  by_cases hq : q ≤ 0
  · simp [buy_shares, hq] at h
  · by_cases hf : get_share_price sym * (q : ℚ) > a.balance
    · simp [buy_shares, hq, hf] at h
    · refine ⟨hq, hf, ?_⟩
      simp only [buy_shares, if_neg hq, if_neg hf, Except.ok.injEq] at h
      exact h.symm

theorem sell_shares_ok_elim {a a2 : Account} {sym : String} {q : Int}
    (h : sell_shares a sym q = Except.ok a2) :
    ∃ n, ¬ q ≤ 0 ∧ lookupH a.holdings sym = some n ∧ ¬ n < q ∧
      a2 = { a with
        balance := a.balance + get_share_price sym * (q : ℚ),
        holdings := subShares a.holdings sym q,
        transactions := a.transactions ++ [Txn.sell sym q] } := by
  by_cases hq : q ≤ 0
  · simp [sell_shares, hq] at h
  · rcases hl : lookupH a.holdings sym with _ | n
    · simp [sell_shares, hq, hl] at h
    · by_cases hn : n < q
      · simp [sell_shares, hq, hl, hn] at h
      · refine ⟨n, hq, rfl, hn, ?_⟩
        simp only [sell_shares, if_neg hq] at h
        rw [hl] at h
        simp only [if_neg hn, Except.ok.injEq] at h
        exact h.symm

theorem buy_shares_ok_intro (a : Account) (sym : String) (q : Int)
    (hq : ¬ q ≤ 0) (hf : ¬ get_share_price sym * (q : ℚ) > a.balance) :
    buy_shares a sym q = Except.ok { a with
      balance := a.balance - get_share_price sym * (q : ℚ),
      holdings := addShares a.holdings sym q,
      transactions := a.transactions ++ [Txn.buy sym q] } := by
  simp [buy_shares, hq, hf]

theorem sell_shares_ok_intro (a : Account) (sym : String) (q n : Int)
    (hq : ¬ q ≤ 0) (hl : lookupH a.holdings sym = some n) (hn : ¬ n < q) :
    sell_shares a sym q = Except.ok { a with
      balance := a.balance + get_share_price sym * (q : ℚ),
      holdings := subShares a.holdings sym q,
      transactions := a.transactions ++ [Txn.sell sym q] } := by
  simp [sell_shares, hq, hl, hn]

theorem accInv_apply {a a2 : Account} {op : Op} (h : AccInv a)
    (hok : applyOp a op = Except.ok a2) : AccInv a2 := by
  obtain ⟨hb, hp, hn⟩ := h
  cases op with
  | deposit amt =>
    obtain ⟨hq, rfl⟩ := deposit_ok_elim hok
    push_neg at hq
    exact ⟨by simp; linarith, hp, hn⟩
  | withdraw amt =>
    obtain ⟨hq, hf, rfl⟩ := withdraw_ok_elim hok
    push_neg at hf
    exact ⟨by simpa using hf, hp, hn⟩
  | buy sym q =>
    obtain ⟨hq, hf, rfl⟩ := buy_shares_ok_elim hok
    push_neg at hq hf
    refine ⟨by simp; linarith, ?_, ?_⟩
    · exact pos_addShares hp hq
    · exact nodup_addShares sym q hn
  | sell sym q =>
    obtain ⟨n, hq, hl, hge, rfl⟩ := sell_shares_ok_elim hok
    push_neg at hq hge
    refine ⟨?_, ?_, ?_⟩
    · have hpr : 0 ≤ get_share_price sym * (q : ℚ) :=
        mul_nonneg (get_share_price_nonneg sym) (by exact_mod_cast hq.le)
      simp
      linarith
    · exact pos_subShares hp hl hge
    · exact List.Nodup.sublist (keys_subShares_sublist a.holdings sym q) hn

theorem accInv_step (a : Account) (op : Op) (h : AccInv a) : AccInv (step a op) := by
  rcases hres : applyOp a op with e | a2
  · simpa [step, hres] using h
  · have := accInv_apply h hres
    simpa [step, hres] using this

theorem accInv_runOps (a : Account) (ops : List Op) (h : AccInv a) :
    AccInv (runOps a ops) := by
  induction ops generalizing a with
  | nil => simpa [runOps] using h
  | cons op rest ih =>
    have h1 := accInv_step a op h
    simpa [runOps, List.foldl_cons] using ih (step a op) h1

theorem accInv_init (u : String) : AccInv (initAccount u) := by
  refine ⟨le_refl 0, ?_, ?_⟩ <;> simp [initAccount]

theorem reachable_inv {a : Account} (hr : Reachable a) : AccInv a := by
  obtain ⟨u, ops, rfl⟩ := hr
  exact accInv_runOps _ _ (accInv_init u)

theorem applyOp_ok_transactions {a a2 : Account} {op : Op}
    (hok : applyOp a op = Except.ok a2) :
    a2.transactions.length = a.transactions.length + 1 := by
  cases op with
  | deposit amt => obtain ⟨_, rfl⟩ := deposit_ok_elim hok; simp
  | withdraw amt => obtain ⟨_, _, rfl⟩ := withdraw_ok_elim hok; simp
  | buy sym q => obtain ⟨_, _, rfl⟩ := buy_shares_ok_elim hok; simp
  | sell sym q => obtain ⟨n, _, _, _, rfl⟩ := sell_shares_ok_elim hok; simp

theorem runOps_transactions_length (a : Account) (ops : List Op) :
    (runOps a ops).transactions.length = a.transactions.length + succCount a ops := by
  induction ops generalizing a with
  | nil => simp [runOps, succCount]
  | cons op rest ih =>
    rcases hres : applyOp a op with e | a2
    · have hstep : step a op = a := by simp [step, hres]
      simp only [runOps, List.foldl_cons, succCount, hres]
      rw [hstep] at *
      simpa [runOps] using ih a
    · have hstep : step a op = a2 := by simp [step, hres]
      have hlen := applyOp_ok_transactions hres
      simp only [runOps, List.foldl_cons, succCount, hres, hstep]
      have := ih a2
      simp only [runOps] at this
      omega

theorem depositFilterSum_eq_mapSum (ts : List Txn) :
    depositFilterSum ts =
      (ts.map (fun t => match t with | Txn.deposit amt => amt | _ => 0)).sum := by
  induction ts with
  | nil => simp [depositFilterSum]
  | cons t rest ih =>
    cases t <;> simp [depositFilterSum, List.filterMap_cons] at * <;> simp [ih]

theorem lookupH_mem {h : List (String × Int)} {s : String} {m : Int}
    (hl : lookupH h s = some m) : (s, m) ∈ h := by
  induction h with
  | nil => simp [lookupH] at hl
  | cons p t ih =>
    obtain ⟨s1, n⟩ := p
    by_cases hs : s1 = s
    · have hm : n = m := by simpa [lookupH, hs] using hl
      subst hm
      subst hs
      exact List.mem_cons_self _ _
    · have hl2 : lookupH t s = some m := by simpa [lookupH, hs] using hl
      exact List.mem_cons_of_mem _ (ih hl2)

/-- Modelled from the spec: the `TradingAccount` implementation (`trading.py`)
is not under `src/`, only its tests are; spec section 3 defines a `Position` as
`symbol`, `shares : integer (>0)` and a weighted-average `avg_cost`. -/
structure Position where
  symbol : String
  shares : Int
  avg_cost : ℚ
  deriving DecidableEq, Repr

/-- Modelled from the spec: a `TradeRecord` with `type`, optional `symbol`,
`quantity` and `price`, a signed `total_amount` cash delta and a `timestamp`
(the tests fix the injectable clock to a constant). -/
structure TradeRecord where
  rectype : String
  symbol : Option String
  quantity : Option Int
  price : Option ℚ
  total_amount : ℚ
  timestamp : String
  deriving DecidableEq, Repr

/-- Modelled from the spec: the error taxonomy of section 7 for the
`TradingAccount` variant, carrying the offending values. -/
inductive TAErr where
  | invalidQuantity
  | unknownSymbol (symbol : String)
  | noPosition (symbol : String)
  | insufficientFunds (available needed : ℚ)
  | insufficientShares (available requested : Int)
  deriving DecidableEq, Repr

/-- Modelled from the spec: the `TradingAccount` state — `cash`, a mapping
from symbol to `Position` and an append-only `history`. -/
structure TradingAccount where
  cash : ℚ
  positions : List Position
  history : List TradeRecord
  deriving DecidableEq, Repr

/-- Modelled from the spec: the injectable clock, fixed for determinism to the
constant the tests assert. -/
def fixedTimestamp : String := "2023-01-01T00:00:00"

/-- Modelled from the spec: the static price table of the `TradingAccount`
variant.  The tests pin AAPL 150, TSLA 700, GOOGL 2500 and MSFT 300; the spec
fixes the remaining supported set {AMZN, NFLX, NVDA, META} but not their
prices, which are chosen arbitrarily here (no claim depends on them). -/
def taPriceTable (s : String) : Option ℚ :=
  if s = "AAPL" then some 150
  else if s = "TSLA" then some 700
  else if s = "GOOGL" then some 2500
  else if s = "MSFT" then some 300
  else if s = "AMZN" then some 3300
  else if s = "META" then some 320
  else if s = "NFLX" then some 400
  else if s = "NVDA" then some 450
  else none

/-- Uppercase normalization of an ASCII ticker symbol, character by
character. -/
def upperAscii (s : String) : String := String.mk (s.data.map Char.toUpper)

/-- Modelled from the spec: `quote(symbol)` — case-insensitive (normalize to
uppercase before lookup), strict policy (`UnknownSymbolError` outside the
supported set). -/
def quote (sym : String) : Except TAErr ℚ :=
  match taPriceTable (upperAscii sym) with
  | some p => Except.ok p
  | none => Except.error (TAErr.unknownSymbol sym)

/-- Modelled from the spec: lookup of the position for a symbol. -/
def findPos : List Position → String → Option Position
  | [], _ => none
  | p :: rest, sym => if p.symbol = sym then some p else findPos rest sym

/-- Modelled from the spec: the position update of `buy` — an existing
position gets `new_avg_cost = (old_shares*old_avg_cost + quantity*price) /
(old_shares+quantity)` and `shares += quantity`; otherwise
`Position(symbol, quantity, price)` is created. -/
def updateBuyPos : List Position → String → Int → ℚ → List Position
  | [], sym, qty, price => [⟨sym, qty, price⟩]
  | p :: rest, sym, qty, price =>
      if p.symbol = sym then
        ⟨p.symbol, p.shares + qty,
          ((p.shares : ℚ) * p.avg_cost + (qty : ℚ) * price) /
            ((p.shares : ℚ) + (qty : ℚ))⟩ :: rest
      else p :: updateBuyPos rest sym qty price

/-- Modelled from the spec: the position update of `sell` — `shares -= quantity`,
the position is removed entirely when `shares` reaches 0, and `avg_cost` is
otherwise unchanged. -/
def updateSellPos : List Position → String → Int → List Position
  | [], _, _ => []
  | p :: rest, sym, qty =>
      if p.symbol = sym then
        (if p.shares - qty = 0 then rest
         else ⟨p.symbol, p.shares - qty, p.avg_cost⟩ :: rest)
      else p :: updateSellPos rest sym qty

/-- Modelled from the spec: the body of `buy(symbol, quantity)` after the
price has been resolved (`cost = price * quantity`; fails with
`InsufficientFundsError` if `cost > cash`; else `cash -= cost`, the position
is updated and a `buy` record with `total_amount = -cost` is appended). -/
def buyAtPrice (a : TradingAccount) (sym : String) (price : ℚ) (qty : Int) :
    Except TAErr TradingAccount :=
  if qty ≤ 0 then Except.error TAErr.invalidQuantity
  else if a.cash < price * (qty : ℚ) then
    Except.error (TAErr.insufficientFunds a.cash (price * (qty : ℚ)))
  else Except.ok
    { cash := a.cash - price * (qty : ℚ),
      positions := updateBuyPos a.positions sym qty price,
      history := a.history ++
        [⟨"buy", some sym, some qty, some price, -(price * (qty : ℚ)), fixedTimestamp⟩] }

/-- Modelled from the spec: `buy(symbol, quantity)` — validates the quantity,
resolves the price through `quote` (propagating `UnknownSymbolError`), then
proceeds as `buyAtPrice`. -/
def buyTA (a : TradingAccount) (sym : String) (qty : Int) : Except TAErr TradingAccount :=
  if qty ≤ 0 then Except.error TAErr.invalidQuantity
  else match quote sym with
    | Except.error e => Except.error e
    | Except.ok price => buyAtPrice a sym price qty

/-- Modelled from the spec: `sell(symbol, quantity)` — validates the quantity,
fails without a position or with too few shares, computes
`proceeds = price * quantity` at the current quote, adds the proceeds to cash,
updates the position and appends a `sell` record. -/
def sellTA (a : TradingAccount) (sym : String) (qty : Int) : Except TAErr TradingAccount :=
  if qty ≤ 0 then Except.error TAErr.invalidQuantity
  else match findPos a.positions sym with
    | none => Except.error (TAErr.noPosition sym)
    | some p =>
      if p.shares < qty then Except.error (TAErr.insufficientShares p.shares qty)
      else match quote sym with
        | Except.error e => Except.error e
        | Except.ok price => Except.ok
          { cash := a.cash + price * (qty : ℚ),
            positions := updateSellPos a.positions sym qty,
            history := a.history ++
              [⟨"sell", some sym, some qty, some price, price * (qty : ℚ), fixedTimestamp⟩] }

theorem buyAtPrice_ok_elim {a a2 : TradingAccount} {sym : String} {price : ℚ} {qty : Int}
    (h : buyAtPrice a sym price qty = Except.ok a2) :
    ¬ qty ≤ 0 ∧ ¬ a.cash < price * (qty : ℚ) ∧ a2 =
      { cash := a.cash - price * (qty : ℚ),
        positions := updateBuyPos a.positions sym qty price,
        history := a.history ++
          [⟨"buy", some sym, some qty, some price, -(price * (qty : ℚ)), fixedTimestamp⟩] } := by
  by_cases hq : qty ≤ 0
  · simp [buyAtPrice, hq] at h
  · by_cases hf : a.cash < price * (qty : ℚ)
    · simp [buyAtPrice, hq, hf] at h
    · refine ⟨hq, hf, ?_⟩
      simp only [buyAtPrice, if_neg hq, if_neg hf, Except.ok.injEq] at h
      exact h.symm

theorem sellTA_ok_elim {a a2 : TradingAccount} {sym : String} {qty : Int}
    (h : sellTA a sym qty = Except.ok a2) :
    ∃ p price, ¬ qty ≤ 0 ∧ findPos a.positions sym = some p ∧ ¬ p.shares < qty ∧
      quote sym = Except.ok price ∧ a2 =
      { cash := a.cash + price * (qty : ℚ),
        positions := updateSellPos a.positions sym qty,
        history := a.history ++
          [⟨"sell", some sym, some qty, some price, price * (qty : ℚ), fixedTimestamp⟩] } := by
  by_cases hq : qty ≤ 0
  · simp [sellTA, hq] at h
  · rcases hfp : findPos a.positions sym with _ | p
    · simp [sellTA, hq, hfp] at h
    · by_cases hsh : p.shares < qty
      · simp [sellTA, hq, hfp, hsh] at h
      · rcases hqu : quote sym with e | price
        · simp [sellTA, hq, hfp, hsh, hqu] at h
        · refine ⟨p, price, hq, rfl, hsh, rfl, ?_⟩
          simp only [sellTA, if_neg hq] at h
          rw [hfp] at h
          simp only [if_neg hsh] at h
          rw [hqu] at h
          simp only [Except.ok.injEq] at h
          exact h.symm

theorem findPos_updateBuyPos (ps : List Position) (sym : String) (qty : Int) (price : ℚ) :
    findPos (updateBuyPos ps sym qty price) sym =
      some (match findPos ps sym with
        | none => ⟨sym, qty, price⟩
        | some p => ⟨p.symbol, p.shares + qty,
            ((p.shares : ℚ) * p.avg_cost + (qty : ℚ) * price) /
              ((p.shares : ℚ) + (qty : ℚ))⟩) := by
  induction ps with
  | nil => simp [updateBuyPos, findPos]
  | cons p t ih =>
    by_cases hs : p.symbol = sym
    · simp [updateBuyPos, findPos, hs]
    · simp only [updateBuyPos, if_neg hs, findPos, ih]

theorem mem_updateSellPos {ps : List Position} {sym : String} {qty : Int} :
    ∀ x ∈ updateSellPos ps sym qty,
      ∃ p ∈ ps, p.symbol = x.symbol ∧ p.avg_cost = x.avg_cost := by
  induction ps with
  | nil => simp [updateSellPos]
  | cons p t ih =>
    intro x hx
    by_cases hs : p.symbol = sym
    · by_cases hz : p.shares - qty = 0
      · simp only [updateSellPos, if_pos hs, if_pos hz] at hx
        exact ⟨x, List.mem_cons_of_mem _ hx, rfl, rfl⟩
      · simp only [updateSellPos, if_pos hs, if_neg hz, List.mem_cons] at hx
        rcases hx with hx | hx
        · exact ⟨p, List.mem_cons_self _ _, by rw [hx], by rw [hx]⟩
        · exact ⟨x, List.mem_cons_of_mem _ hx, rfl, rfl⟩
    · simp only [updateSellPos, if_neg hs, List.mem_cons] at hx
      rcases hx with hx | hx
      · exact ⟨p, List.mem_cons_self _ _, by rw [hx], by rw [hx]⟩
      · obtain ⟨p1, hp1, hsym, havg⟩ := ih x hx
        exact ⟨p1, List.mem_cons_of_mem _ hp1, hsym, havg⟩

/-- Concrete account with cash 10 used to instantiate the withdraw spec. -/
def acctTen : Account :=
  { username := "u", balance := 10, holdings := [], transactions := [] }

/-- Concrete account reached by `deposit(1000)` on a fresh `Account("w")`. -/
def acctW : Account :=
  { username := "w", balance := 1000, holdings := [], transactions := [Txn.deposit 1000] }

/-- Concrete account reached from `acctW` by `buy_shares("AAPL", 2)`. -/
def acctWb : Account :=
  { username := "w", balance := 700, holdings := [("AAPL", 2)],
    transactions := [Txn.deposit 1000, Txn.buy "AAPL" 2] }

/-- C1: in every state reachable from a newly created account by any sequence
of deposit, withdraw, buy and sell calls (successful or failing), the cash
balance is non-negative. -/
theorem C1_cash_nonneg (a : Account) (hr : Reachable a) : 0 ≤ a.balance :=
  (reachable_inv hr).1

theorem C1_cash_nonneg_witness :
    0 ≤ (runOps (initAccount "alice")
      [Op.deposit 100, Op.withdraw 30, Op.buy "AAPL" 5, Op.withdraw 1000]).balance :=
  C1_cash_nonneg _ ⟨"alice",
    [Op.deposit 100, Op.withdraw 30, Op.buy "AAPL" 5, Op.withdraw 1000], rfl⟩

/-- C2: whenever a mutating call raises, the caller-observed account is exactly
the pre-call state (no partial mutation), and after any session the history
length equals the starting length plus the number of successful calls. -/
theorem C2_atomic_failures (a : Account) :
    (∀ op msg, applyOp a op = Except.error msg → step a op = a) ∧
    (∀ ops, (runOps a ops).transactions.length =
      a.transactions.length + succCount a ops) := by
  constructor
  · intro op msg h
    simp [step, h]
  · intro ops
    exact runOps_transactions_length a ops

theorem C2_atomic_failures_witness :
    step (initAccount "u") (Op.withdraw 5) = initAccount "u" ∧
    (runOps (initAccount "u") [Op.deposit 10, Op.withdraw 99, Op.buy "AAPL" 1,
      Op.sell "TSLA" 1]).transactions.length =
      (initAccount "u").transactions.length +
        succCount (initAccount "u") [Op.deposit 10, Op.withdraw 99, Op.buy "AAPL" 1,
          Op.sell "TSLA" 1] :=
  ⟨(C2_atomic_failures (initAccount "u")).1 (Op.withdraw 5) msgWithdrawInsufficient
      (by norm_num [applyOp, withdraw, initAccount]),
   (C2_atomic_failures (initAccount "u")).2 _⟩

/-- C3: for every amount ≤ 0 and every account state, `deposit(amount)` and
`withdraw(amount)` fail with an error and leave the account (cash and
history) unchanged. -/
theorem C3_nonpositive_amounts_fail (a : Account) (amount : ℚ) (h : amount ≤ 0) :
    deposit a amount = Except.error msgDepositPositive ∧
    withdraw a amount = Except.error msgWithdrawPositive ∧
    step a (Op.deposit amount) = a ∧ step a (Op.withdraw amount) = a := by
  have hd : deposit a amount = Except.error msgDepositPositive := by simp [deposit, h]
  have hw : withdraw a amount = Except.error msgWithdrawPositive := by simp [withdraw, h]
  exact ⟨hd, hw, by simp [step, applyOp, hd], by simp [step, applyOp, hw]⟩

theorem C3_nonpositive_amounts_fail_witness :
    deposit acctTen (-3) = Except.error msgDepositPositive ∧
    withdraw acctTen (-3) = Except.error msgWithdrawPositive ∧
    step acctTen (Op.deposit (-3)) = acctTen ∧ step acctTen (Op.withdraw (-3)) = acctTen :=
  C3_nonpositive_amounts_fail acctTen (-3) (by norm_num)

/-- C4 counterexample: on a freshly created account the cash balance is 0, and
withdrawing the whole cash balance does not succeed — `withdraw(0)` fails with
the invalid-amount error — refuting the claim that `withdraw(cash)` succeeds
in every account state. -/
theorem C4_withdraw_full_cash_zero_fails :
    withdraw (initAccount "u") (initAccount "u").balance =
      Except.error msgWithdrawPositive := by
  simp [withdraw, initAccount]

/-- C4 (amended): `withdraw(amount)` fails with the invalid-amount error when
`amount ≤ 0`, fails with the insufficient-funds error when `amount > 0` and
`amount > cash`, and otherwise succeeds decreasing cash by exactly `amount`;
in particular `withdraw(cash)` succeeds and leaves cash = 0 whenever
`cash > 0`. -/
theorem C4_withdraw_spec (a : Account) (amount : ℚ) :
    (amount ≤ 0 → withdraw a amount = Except.error msgWithdrawPositive) ∧
    (¬ amount ≤ 0 → a.balance < amount →
      withdraw a amount = Except.error msgWithdrawInsufficient) ∧
    (¬ amount ≤ 0 → amount ≤ a.balance →
      withdraw a amount = Except.ok { a with
        balance := a.balance - amount,
        transactions := a.transactions ++ [Txn.withdrawal amount] }) ∧
    (0 < a.balance →
      ∃ a2, withdraw a a.balance = Except.ok a2 ∧ a2.balance = 0) := by
  refine ⟨?_, ?_, ?_, ?_⟩
  · intro h
    simp [withdraw, h]
  · intro h hf
    have hf2 : a.balance - amount < 0 := by linarith
    simp [withdraw, h, hf2]
  · intro h hf
    have hf2 : ¬ a.balance - amount < 0 := by linarith
    simp [withdraw, h, hf2]
  · intro hb
    have h : ¬ a.balance ≤ 0 := by linarith
    have hf2 : ¬ a.balance - a.balance < 0 := by simp
    exact ⟨{ a with
        balance := a.balance - a.balance,
        transactions := a.transactions ++ [Txn.withdrawal a.balance] },
      by simp [withdraw, h, hf2], by simp⟩

theorem C4_withdraw_spec_witness :
    withdraw acctTen 0 = Except.error msgWithdrawPositive ∧
    withdraw acctTen 20 = Except.error msgWithdrawInsufficient ∧
    withdraw acctTen 4 = Except.ok { acctTen with
      balance := acctTen.balance - 4,
      transactions := acctTen.transactions ++ [Txn.withdrawal 4] } ∧
    ∃ a2, withdraw acctTen acctTen.balance = Except.ok a2 ∧ a2.balance = 0 :=
  ⟨(C4_withdraw_spec acctTen 0).1 (by norm_num),
   (C4_withdraw_spec acctTen 20).2.1 (by norm_num) (by norm_num [acctTen]),
   (C4_withdraw_spec acctTen 4).2.2.1 (by norm_num) (by norm_num [acctTen]),
   (C4_withdraw_spec acctTen 0).2.2.2 (by norm_num [acctTen])⟩

/-- C5: from any reachable account state, for a supported symbol and a buy
that succeeds, immediately selling the same quantity succeeds and returns the
cash balance to its value before the buy (prices are fixed constants). -/
theorem C5_buy_sell_roundtrip (a a1 : Account) (sym : String) (q : Int)
    (hr : Reachable a)
    (_hsym : sym = "AAPL" ∨ sym = "TSLA" ∨ sym = "GOOGL")
    (hbuy : buy_shares a sym q = Except.ok a1) :
    ∃ a2, sell_shares a1 sym q = Except.ok a2 ∧ a2.balance = a.balance := by
  obtain ⟨hb, hp, hn⟩ := reachable_inv hr
  obtain ⟨hq, hf, rfl⟩ := buy_shares_ok_elim hbuy
  have hlook : lookupH (addShares a.holdings sym q) sym
      = some ((lookupH a.holdings sym).getD 0 + q) := lookupH_addShares_self _ _ _
  have hn0 : 0 ≤ (lookupH a.holdings sym).getD 0 := by
    rcases hll : lookupH a.holdings sym with _ | m
    · simp
    · have := hp _ (lookupH_mem hll)
      simp only [Option.getD_some]
      omega
  have hge : ¬ (lookupH a.holdings sym).getD 0 + q < q := by omega
  refine ⟨_, sell_shares_ok_intro _ sym q _ hq hlook hge, ?_⟩
  simp

theorem runOps_acctW : runOps (initAccount "w") [Op.deposit 1000] = acctW := by
  norm_num [runOps, step, applyOp, deposit, initAccount, acctW]

theorem buy_acctW : buy_shares acctW "AAPL" 2 = Except.ok acctWb := by
  norm_num [buy_shares, get_share_price, addShares, acctW, acctWb]

theorem runOps_acctWb :
    runOps (initAccount "w") [Op.deposit 1000, Op.buy "AAPL" 2] = acctWb := by
  norm_num [runOps, step, applyOp, deposit, buy_shares, get_share_price, addShares,
    initAccount, acctWb]

theorem C5_buy_sell_roundtrip_witness :
    ∃ a2, sell_shares acctWb "AAPL" 2 = Except.ok a2 ∧ a2.balance = acctW.balance :=
  C5_buy_sell_roundtrip acctW acctWb "AAPL" 2
    ⟨"w", [Op.deposit 1000], runOps_acctW⟩ (Or.inl rfl) buy_acctW

/-- C6: in every reachable account state every symbol present in the holdings
maps to a strictly positive share count, and selling the entire recorded count
of a symbol succeeds and removes that symbol from the holdings. -/
theorem C6_positive_holdings (a : Account) (hr : Reachable a) :
    (∀ p ∈ a.holdings, 0 < p.2) ∧
    (∀ sym n, lookupH a.holdings sym = some n →
      ∃ a2, sell_shares a sym n = Except.ok a2 ∧ lookupH a2.holdings sym = none) := by
  obtain ⟨hb, hp, hn⟩ := reachable_inv hr
  refine ⟨hp, ?_⟩
  intro sym n hl
  have hpos : 0 < n := hp _ (lookupH_mem hl)
  have hq : ¬ n ≤ 0 := by omega
  have hnn : ¬ n < n := by omega
  exact ⟨_, sell_shares_ok_intro a sym n n hq hl hnn, lookupH_subShares_full hn hl⟩

theorem C6_positive_holdings_witness :
    ∃ a2, sell_shares acctWb "AAPL" 2 = Except.ok a2 ∧
      lookupH a2.holdings "AAPL" = none :=
  (C6_positive_holdings acctWb
    ⟨"w", [Op.deposit 1000, Op.buy "AAPL" 2], runOps_acctWb⟩).2 "AAPL" 2
    (by simp [acctWb, lookupH])

theorem findPos_updateBuyPos_none {ps : List Position} {sym : String} {qty : Int}
    {price : ℚ} (h : findPos ps sym = none) :
    findPos (updateBuyPos ps sym qty price) sym = some ⟨sym, qty, price⟩ := by
  rw [findPos_updateBuyPos, h]

theorem findPos_updateBuyPos_some {ps : List Position} {sym : String} {qty : Int}
    {price : ℚ} {p : Position} (h : findPos ps sym = some p) :
    findPos (updateBuyPos ps sym qty price) sym =
      some ⟨p.symbol, p.shares + qty,
        ((p.shares : ℚ) * p.avg_cost + (qty : ℚ) * price) /
          ((p.shares : ℚ) + (qty : ℚ))⟩ := by
  rw [findPos_updateBuyPos, h]

/-- C7: buying `q1` shares of a fresh symbol at price `p1` and then `q2` more
at price `p2` leaves a position whose recorded average cost is exactly
`(q1*p1 + q2*p2)/(q1+q2)` (the first buy records `avg_cost = p1`); and a
successful sell never changes the average cost of any surviving position. -/
theorem C7_avg_cost (a0 a1 a2 : TradingAccount) (sym : String) (q1 q2 : Int) (p1 p2 : ℚ)
    (h0 : findPos a0.positions sym = none)
    (h1 : buyAtPrice a0 sym p1 q1 = Except.ok a1)
    (h2 : buyAtPrice a1 sym p2 q2 = Except.ok a2) :
    (∃ pos, findPos a2.positions sym = some pos ∧ pos.shares = q1 + q2 ∧
      pos.avg_cost = ((q1 : ℚ) * p1 + (q2 : ℚ) * p2) / ((q1 : ℚ) + (q2 : ℚ))) ∧
    (∀ b b2 sym2 qty, sellTA b sym2 qty = Except.ok b2 →
      ∀ x ∈ b2.positions, ∃ p ∈ b.positions,
        p.symbol = x.symbol ∧ p.avg_cost = x.avg_cost) := by
  constructor
  · obtain ⟨hq1, hf1, rfl⟩ := buyAtPrice_ok_elim h1
    obtain ⟨hq2, hf2, rfl⟩ := buyAtPrice_ok_elim h2
    have hfi1 : findPos (updateBuyPos a0.positions sym q1 p1) sym =
        some ⟨sym, q1, p1⟩ := findPos_updateBuyPos_none h0
    exact ⟨_, findPos_updateBuyPos_some hfi1, rfl, rfl⟩
  · intro b b2 sym2 qty hsell x hx
    obtain ⟨p, price, hq, hfp, hsh, hqu, rfl⟩ := sellTA_ok_elim hsell
    exact mem_updateSellPos x hx

/-- Concrete `TradingAccount` before any trade. -/
def taW0 : TradingAccount := { cash := 10000, positions := [], history := [] }

/-- Concrete `TradingAccount` after buying 10 AAPL at 150. -/
def taW1 : TradingAccount :=
  { cash := 8500, positions := [⟨"AAPL", 10, 150⟩],
    history := [⟨"buy", some "AAPL", some 10, some 150, -1500, fixedTimestamp⟩] }

/-- Concrete `TradingAccount` after additionally buying 10 AAPL at 160. -/
def taW2 : TradingAccount :=
  { cash := 6900, positions := [⟨"AAPL", 20, 155⟩],
    history := [⟨"buy", some "AAPL", some 10, some 150, -1500, fixedTimestamp⟩,
      ⟨"buy", some "AAPL", some 10, some 160, -1600, fixedTimestamp⟩] }

theorem C7_avg_cost_witness :
    ∃ pos, findPos taW2.positions "AAPL" = some pos ∧
      pos.shares = 10 + 10 ∧
      pos.avg_cost = (((10 : Int) : ℚ) * 150 + ((10 : Int) : ℚ) * 160) /
        (((10 : Int) : ℚ) + ((10 : Int) : ℚ)) :=
  (C7_avg_cost taW0 taW1 taW2 "AAPL" 10 10 150 160
    (by simp [taW0, findPos])
    (by norm_num [buyAtPrice, updateBuyPos, taW0, taW1])
    (by norm_num [buyAtPrice, updateBuyPos, taW1, taW2])).1

/-- C8 counterexample: `get_share_price` in `output/accounts.py` does not
normalize its input — the lowercase spelling of a supported symbol falls
through to the `0.0` default, so price lookup is not case-insensitive. -/
theorem C8_case_insensitive_cex :
    get_share_price "aapl" ≠ get_share_price "AAPL" := by decide

/-- C8 (amended): `get_share_price` is case-sensitive — it returns the table
price exactly for the three uppercase keys and `0.0` for every other string,
in particular for every other casing of a supported symbol; the spec-modelled
`TradingAccount.quote` normalizes to uppercase, so any two spellings with the
same uppercase form — in particular all letter-casings of a supported
symbol — quote to the same price. -/
theorem C8_price_lookup_casing :
    (∀ s : String, s ≠ "AAPL" → s ≠ "TSLA" → s ≠ "GOOGL" → get_share_price s = 0) ∧
    get_share_price "AAPL" = 150 ∧ get_share_price "TSLA" = 700 ∧
    get_share_price "GOOGL" = 2800 ∧ get_share_price "aapl" = 0 ∧
    (∀ s t p, upperAscii s = upperAscii t →
      quote t = Except.ok p → quote s = Except.ok p) := by
  refine ⟨?_, by decide, by decide, by decide, by decide, ?_⟩
  · intro s h1 h2 h3
    simp [get_share_price, h1, h2, h3]
  · intro s t p hcase hq
    unfold quote at hq ⊢
    rw [hcase]
    rcases htab : taPriceTable (upperAscii t) with _ | p2
    · rw [htab] at hq
      exact Except.noConfusion hq
    · rw [htab] at hq
      exact hq

theorem C8_price_lookup_casing_witness :
    get_share_price "aapl" = 0 ∧ quote "aapl" = Except.ok 150 :=
  ⟨C8_price_lookup_casing.1 "aapl" (by decide) (by decide) (by decide),
   C8_price_lookup_casing.2.2.2.2.2 "aapl" "AAPL" 150 rfl rfl⟩

/-- C9: for every account state, `get_profit_loss` equals the total portfolio
value (cash plus the sum over holdings of shares times the quoted price)
minus the sum of the amounts of all deposit records in the history. -/
theorem C9_profit_loss (a : Account) :
    get_profit_loss a =
      (a.balance + (a.holdings.map (fun p => get_share_price p.1 * (p.2 : ℚ))).sum) -
        (a.transactions.map
          (fun t => match t with | Txn.deposit amt => amt | _ => 0)).sum := by
  unfold get_profit_loss get_portfolio_value
  rw [foldl_add_eq, depositFilterSum_eq_mapSum]

/-- C10: for a symbol outside the fixed price table and any quantity `q > 0`,
`get_share_price` returns `0.0` and `buy_shares` succeeds on every reachable
account, leaving the balance unchanged, increasing that symbol's holding by
`q` and appending a buy record. -/
theorem C10_unknown_symbol_buy (a : Account) (sym : String) (q : Int)
    (hr : Reachable a)
    (h1 : sym ≠ "AAPL") (h2 : sym ≠ "TSLA") (h3 : sym ≠ "GOOGL")
    (hq : 0 < q) :
    get_share_price sym = 0 ∧
    ∃ a2, buy_shares a sym q = Except.ok a2 ∧ a2.balance = a.balance ∧
      lookupH a2.holdings sym = some ((lookupH a.holdings sym).getD 0 + q) ∧
      a2.transactions = a.transactions ++ [Txn.buy sym q] := by
  have hb := (reachable_inv hr).1
  have hprice : get_share_price sym = 0 := by simp [get_share_price, h1, h2, h3]
  have hq2 : ¬ q ≤ 0 := by omega
  have hcost : ¬ get_share_price sym * (q : ℚ) > a.balance := by
    rw [hprice]
    simpa using hb
  refine ⟨hprice, _, buy_shares_ok_intro a sym q hq2 hcost, ?_, ?_, rfl⟩
  · simp [hprice]
  · exact lookupH_addShares_self _ _ _

theorem C10_unknown_symbol_buy_witness :
    get_share_price "MSFT" = 0 ∧
    ∃ a2, buy_shares (initAccount "u") "MSFT" 3 = Except.ok a2 ∧
      a2.balance = (initAccount "u").balance ∧
      lookupH a2.holdings "MSFT" =
        some ((lookupH (initAccount "u").holdings "MSFT").getD 0 + 3) ∧
      a2.transactions = (initAccount "u").transactions ++ [Txn.buy "MSFT" 3] :=
  C10_unknown_symbol_buy (initAccount "u") "MSFT" 3 ⟨"u", [], rfl⟩
    (by decide) (by decide) (by decide) (by decide)

end TradingSpec
